import Mathlib

/-!
Verification of `ubelt/_internal/static_autogen.py`.

Python strings are embedded as `List Char` (`PyStr`); line sequences as
`List PyStr`.  Pure functions of the source file (`_initstr`,
`_make_imports_str`, `_make_fromimport_str`, `_indent`, the boundary scan
and splice of `_autogen_init_write`, and the plan construction of
`_static_parse_imports`) are translated directly.  External collaborators
(the `xdoctest.static_analysis` resolver/parser and the filesystem) are
modelled as an explicit environment (`StaticEnv`), and the standard-library
call `textwrap.wrap(rawstr, break_long_words=False, width=79,
initial_indent=chr(39)+chr(39), subsequent_indent=newline_prefix)` is
modelled by its documented greedy algorithm over whitespace-separated
chunks (valid for the whitespace-free, hyphen-free identifier words this
code feeds it): words are packed greedily onto lines; a word longer than
the remaining width is never split and is placed alone on its line.
-/

namespace StaticAutogen

/-- Python strings, embedded as lists of characters. -/
abbrev PyStr := List Char

/-- Shorthand turning a Lean string literal into a `PyStr`. -/
def S (s : String) : PyStr := s.data

/-- Whitespace characters recognised by Python `str.strip` (ASCII range,
which is all the analysed code ever produces). -/
def isPySpace (c : Char) : Bool :=
  c == ' ' || c == '\t' || c == '\n' || c == '\r' || c == '\x0b' || c == '\x0c'

/-- Python `str.lstrip()`. -/
def pyLstrip (s : PyStr) : PyStr := s.dropWhile isPySpace

/-- Python `str.rstrip()`. -/
def pyRstrip (s : PyStr) : PyStr := (s.reverse.dropWhile isPySpace).reverse

/-- Python `str.strip()`. -/
def pyStrip (s : PyStr) : PyStr := pyLstrip (pyRstrip s)

/-- A single-quote character, and the triple-quote delimiter built from it. -/
def squote : Char := Char.ofNat 39

/-- The Python triple-single-quote docstring delimiter. -/
def tripleSquote : PyStr := List.replicate 3 squote

/-- Python `sep.join(parts)`. -/
def joinWith (sep : PyStr) : List PyStr → PyStr
  | [] => []
  | [x] => x
  | x :: xs => x ++ sep ++ joinWith sep xs

/-- Python `'\n'.split`-style splitting (no kept ends): `s.split(chr(10))`. -/
def splitNlAux (acc : PyStr) : PyStr → List PyStr
  | [] => [acc.reverse]
  | c :: cs => if c = '\n' then acc.reverse :: splitNlAux [] cs else splitNlAux (c :: acc) cs

/-- Split a string at newline characters, like Python `s.split(chr(10))`. -/
def splitNl (s : PyStr) : List PyStr := splitNlAux [] s

/-- Auxiliary for `splitKeepNl`: split after each newline, keeping it. -/
def splitKeepNlAux (acc : PyStr) : PyStr → List PyStr
  | [] => if acc.isEmpty then [] else [acc.reverse]
  | c :: cs =>
    if c = '\n' then (acc.reverse ++ ['\n']) :: splitKeepNlAux [] cs
    else splitKeepNlAux (c :: acc) cs

/-- Python `file.readlines()` / `s.splitlines(True)` for newline-only texts:
split into lines, each keeping its trailing newline; a final unterminated
segment is kept, and the empty text yields no lines. -/
def splitKeepNl (s : PyStr) : List PyStr := splitKeepNlAux [] s

/-- Auxiliary for `splitWords`: split at whitespace runs, dropping empties. -/
def splitWordsAux (acc : PyStr) : PyStr → List PyStr
  | [] => if acc.isEmpty then [] else [acc.reverse]
  | c :: cs =>
    if isPySpace c then
      if acc.isEmpty then splitWordsAux [] cs else acc.reverse :: splitWordsAux [] cs
    else splitWordsAux (c :: acc) cs

/-- `textwrap`'s chunking of simple text: split into maximal
whitespace-free words (for text with no hyphenated compounds this is
exactly `textwrap`'s word splitting). -/
def splitWords (s : PyStr) : List PyStr := splitWordsAux [] s

/-- Join a group of words with single spaces (how a wrapped line renders). -/
def joinSp (g : List PyStr) : PyStr := joinWith [' '] g

/-- Greedy line filling of `textwrap._wrap_chunks`: `cur` holds the words
of the current line in reverse, `len` the rendered length of that line
(words plus single separating spaces, without the indent); a further word
`w` is added while `len + 1 + w.length ≤ avail`, and otherwise a new line
is started whose available width is `availRest`. -/
def wrapAccum (availRest : Nat) (avail : Nat) (cur : List PyStr) (len : Nat) :
    List PyStr → List (List PyStr)
  | [] => [cur.reverse]
  | w :: ws =>
    if len + 1 + w.length ≤ avail then
      wrapAccum availRest avail (w :: cur) (len + 1 + w.length) ws
    else
      cur.reverse :: wrapAccum availRest availRest [w] w.length ws

/-- The word groups `textwrap.wrap` forms: the first line has `availFirst`
columns available (width minus the empty `initial_indent`), later lines
`availRest` (width minus the `subsequent_indent`).  With
`break_long_words=False` an overlong word always begins its own group. -/
def wrapGroups (availRest availFirst : Nat) : List PyStr → List (List PyStr)
  | [] => []
  | w :: ws => wrapAccum availRest availFirst [w] w.length ws

/-- The lines `textwrap.wrap(text, width, ...)` returns, rendered: the
first line carries no indent, continuation lines are prefixed with `ind`
(the `subsequent_indent`). -/
def wrapLines (width : Nat) (ind : PyStr) (ws : List PyStr) : List PyStr :=
  match wrapGroups (width - ind.length) width ws with
  | [] => []
  | g :: gs => joinSp g :: gs.map (fun g2 => ind ++ joinSp g2)

/-- `_make_imports_str(imports, rootmodname)`: one
`from {rootmodname} import {name}` line per entry, newline-joined. -/
def makeImportsStr (imports : List PyStr) (rootmodname : PyStr) : PyStr :=
  joinWith (S "\n") (imports.map fun name => S "from " ++ rootmodname ++ S " import " ++ name)

/-- The `rootmodname` adjustment at the top of `_make_fromimport_str`:
a bare dot becomes the empty string. -/
def dotAdjust (rootmodname : PyStr) : PyStr :=
  if rootmodname = S "." then [] else rootmodname

/-- The literal text `from {root}.{name} import (` of `_pack_fromimport`. -/
def fromModuleStr (root : PyStr) (tup : PyStr × List PyStr) : PyStr :=
  S "from " ++ root ++ S "." ++ tup.1 ++ S " import ("

/-- `newline_prefix` of `_pack_fromimport`: spaces matching the prefix. -/
def nlIndentOf (root : PyStr) (tup : PyStr × List PyStr) : PyStr :=
  List.replicate (fromModuleStr root tup).length ' '

/-- `rawstr` of `_pack_fromimport`: the unwrapped from-import statement,
or the empty string when the from-list is empty. -/
def rawstrOf (root : PyStr) (tup : PyStr × List PyStr) : PyStr :=
  if tup.2.isEmpty then []
  else fromModuleStr root tup ++ joinWith (S ", ") tup.2 ++ S ",)"

/-- `_pack_fromimport(tup)`: wrap `rawstr` at width 79 with the aligned
continuation indent and join the resulting lines with newlines
(`textwrap.wrap` of the empty string gives no lines, hence the empty
string back). -/
def packFromimport (root : PyStr) (tup : PyStr × List PyStr) : PyStr :=
  joinWith (S "\n") (wrapLines 79 (nlIndentOf root tup) (splitWords (rawstrOf root tup)))

/-- `_make_fromimport_str(from_imports, rootmodname)`: newline-join of the
packed per-entry statements (empty entries included in the join). -/
def makeFromimportStr (from_imports : List (PyStr × List PyStr)) (rootmodname : PyStr) : PyStr :=
  joinWith (S "\n") (from_imports.map (packFromimport (dotAdjust rootmodname)))

/-- `_make_module_header()`. -/
def makeModuleHeader : PyStr :=
  joinWith (S "\n")
    [S "# flake8: noqa",
     S "from __future__ import absolute_import, division, print_function, unicode_literals"]

/-- `_initstr(modname, imports, from_imports, withheader)`: newline-join of
the non-empty components. -/
def initstr (modname : PyStr) (imports : List PyStr)
    (from_imports : List (PyStr × List PyStr)) (withheader : Bool) : PyStr :=
  joinWith (S "\n")
    (([if withheader then makeModuleHeader else [],
       makeImportsStr imports modname,
       makeFromimportStr from_imports modname]).filter fun s => 0 < s.length)

/-- Python exceptions this module can raise: `ValueError` is what
`autogen_init` raises for an unresolvable root (the spec's
`ResolutionError`), `TypeError` is what `open(None)` raises when an
explicit submodule name resolved to `None`. -/
inductive PyError where
  | valueError
  | typeError
deriving DecidableEq, Repr

/-- The external collaborators of `_static_parse_imports`, as data:
`modname` is `modpath_to_modname(modpath)`; `packagePaths` the enumeration
`package_modpaths(modpath)`; `toModname` maps a submodule path to its
dotted name; `resolve` is `modname_to_modpath` (`none` when unresolvable);
`calldefs` gives, for a submodule path, the keys of
`TopLevelVisitor.parse(source).calldefs` in definition order. -/
structure StaticEnv where
  modname : PyStr
  packagePaths : List PyStr
  toModname : PyStr → PyStr
  resolve : PyStr → Option PyStr
  calldefs : PyStr → List PyStr

/-- The per-submodule callable filter of `_static_parse_imports`: drop
names containing a dot or starting with an underscore, keeping order. -/
def validCallnames (callnames : List PyStr) : List PyStr :=
  callnames.filter fun c => !(c.contains '.') && !((S "_").isPrefixOf c)

/-- The enumeration loop of `_static_parse_imports` (no explicit list):
walk `package_modpaths`, compute each relative dotted name by stripping
`modname` plus the dot, and skip relative names starting with an
underscore; retained entries are `(rel_modname, sub_modpath)` pairs. -/
def enumFilterList (modname : PyStr) (toModname : PyStr → PyStr) : List PyStr → List (PyStr × PyStr)
  | [] => []
  | p :: ps =>
    let rel := (toModname p).drop (modname.length + 1)
    if (S "_").isPrefixOf rel then enumFilterList modname toModname ps
    else (rel, p) :: enumFilterList modname toModname ps

/-- The `from_imports` loop of `_static_parse_imports`: for each
`(sub_modpath, rel_modname)` pair, open and parse the file and keep the
filtered callables.  A `none` path (an unresolved explicit name) makes
`open(None)` raise `TypeError`. -/
def buildFromImports (calldefs : PyStr → List PyStr) :
    List (Option PyStr × PyStr) → Except PyError (List (PyStr × List PyStr))
  | [] => .ok []
  | (none, _) :: _ => .error .typeError
  | (some p, rel) :: rest =>
    match buildFromImports calldefs rest with
    | .ok tail => .ok ((rel, validCallnames (calldefs p)) :: tail)
    | .error e => .error e

/-- `_static_parse_imports(modpath, imports)`: returns
`(modname, imports, from_imports)`.  With an explicit list, each name is
resolved through `modname_to_modpath` without any underscore filtering;
without one, submodules are enumerated and underscore-prefixed relative
names are skipped. -/
def staticParseImports (env : StaticEnv) (importsOpt : Option (List PyStr)) :
    Except PyError (PyStr × List PyStr × List (PyStr × List PyStr)) :=
  match importsOpt with
  | some ms =>
    let importPaths := ms.map fun m => env.resolve (env.modname ++ '.' :: m)
    match buildFromImports env.calldefs (importPaths.zip ms) with
    | .ok fi => .ok (env.modname, ms, fi)
    | .error e => .error e
  | none =>
    let pairs := enumFilterList env.modname env.toModname env.packagePaths
    match buildFromImports env.calldefs ((pairs.map fun pr => some pr.2).zip (pairs.map fun pr => pr.1)) with
    | .ok fi => .ok (env.modname, pairs.map (fun pr => pr.1), fi)
    | .error e => .error e

/-- State of the boundary scan in `_autogen_init_write`. -/
structure ScanState where
  startline : Nat
  endline : Nat
  explMode : Bool
  indent : PyStr
deriving DecidableEq, Repr

/-- A line whose stripped content starts with the begin marker. -/
def isBegin (line : PyStr) : Bool := (S "# <AUTOGEN_INIT>").isPrefixOf (pyStrip line)

/-- A line whose stripped content starts with the end marker. -/
def isEnd (line : PyStr) : Bool := (S "# </AUTOGEN_INIT>").isPrefixOf (pyStrip line)

/-- `line[:line.find(chr(35))]` for a line that contains a `#` (the only
case in which the source evaluates it): everything before the first `#`. -/
def takeUntilHash (line : PyStr) : PyStr := line.takeWhile fun c => c != '#'

/-- One iteration of the `for lineno, line in enumerate(lines)` scan of
`_autogen_init_write`: the five sequential `if` statements. -/
def scanStep (st : ScanState) (lineno : Nat) (line : PyStr) : ScanState :=
  let stripped := pyStrip line
  let st1 := if !st.explMode && (stripped == S "\"\"\"" || stripped == tripleSquote) then
      { st with startline := lineno + 1 } else st
  let st2 := if !st1.explMode && (S "from __future__").isPrefixOf stripped then
      { st1 with startline := lineno + 1 } else st1
  let st3 := if !st2.explMode && (S "#").isPrefixOf stripped then
      { st2 with startline := lineno + 1 } else st2
  let st4 := if isBegin line then
      { st3 with indent := takeUntilHash line, explMode := true, startline := lineno + 1 } else st3
  if st4.explMode && isEnd line then { st4 with endline := lineno } else st4

/-- The scan loop, carrying the running line number. -/
def scanFrom (st : ScanState) (i : Nat) : List PyStr → ScanState
  | [] => st
  | l :: ls => scanFrom (scanStep st i l) (i + 1) ls

/-- The full boundary scan of `_autogen_init_write`, from the initial
state `startline = 0`, `endline = len(lines)`. -/
def scanLines (lines : List PyStr) : ScanState :=
  scanFrom ⟨0, lines.length, false, []⟩ 0 lines

/-- `str_.replace(chr(10), chr(10) + indent)`. -/
def replaceNl (ind : PyStr) : PyStr → PyStr
  | [] => []
  | c :: cs => if c = '\n' then '\n' :: (ind ++ replaceNl ind cs) else c :: replaceNl ind cs

/-- `_indent(str_, indent)`: prefix the first line and every line after a
newline with `indent`. -/
def indentWith (s ind : PyStr) : PyStr := ind ++ replaceNl ind s

/-- The spliced, indented block `initstr_` of `_autogen_init_write`. -/
def midBlock (initstrArg ind : PyStr) : PyStr := indentWith initstrArg ind ++ S "\n"

/-- The pure core of `_autogen_init_write`: scan the boundary, splice
`lines[:startline] + [indented block] + lines[endline:]`, join and strip
trailing whitespace.  `none` models the `assert startline <= endline`
failing (the write aborts). -/
def mergePure (lines : List PyStr) (initstrArg : PyStr) : Option PyStr :=
  let st := scanLines lines
  if st.startline ≤ st.endline then
    some (pyRstrip ((lines.take st.startline ++ [midBlock initstrArg st.indent] ++
      lines.drop st.endline).flatten))
  else none

/-- A `readlines`-shaped line: newline-terminated with no interior newline. -/
def wfLineB (l : PyStr) : Bool :=
  !(l.dropLast.contains '\n') && (l.getLast? == some '\n')

/-- A string that is nonempty and carries no trailing whitespace. -/
def endsNonWsB (s : PyStr) : Bool := !s.isEmpty && pyRstrip s == s

/-- The last line of a tail block, if any, has real content before its
newline (so the final `rstrip` only removes that newline). -/
def lastBodyOkB (ls : List PyStr) : Bool :=
  match ls.getLast? with
  | none => true
  | some lc => endsNonWsB lc.dropLast

/-- The Scenario A package: root `pkg` with enumerated submodules `a`
(callables `foo`, `_bar`), `_hidden`, and `b` (no callables). -/
def envA : StaticEnv where
  modname := S "pkg"
  packagePaths := [S "pkg/a.py", S "pkg/_hidden.py", S "pkg/b.py"]
  toModname := fun p =>
    if p == S "pkg/a.py" then S "pkg.a"
    else if p == S "pkg/_hidden.py" then S "pkg._hidden"
    else S "pkg.b"
  resolve := fun _ => none
  calldefs := fun p => if p == S "pkg/a.py" then [S "foo", S "_bar"] else []

/-- An environment in which no module name resolves to a path. -/
def envU : StaticEnv where
  modname := S "pkg"
  packagePaths := []
  toModname := fun p => p
  resolve := fun _ => none
  calldefs := fun _ => []

/-! Helper lemmas about splitting and joining. -/

theorem splitNlAux_append (s t : PyStr) : ∀ acc,
    splitNlAux acc (s ++ '\n' :: t) = splitNlAux acc s ++ splitNlAux [] t := by
  induction s with
  | nil => intro acc; simp [splitNlAux]
  | cons c cs ih =>
    intro acc
    by_cases h : c = '\n'
    · subst h; simp [splitNlAux, ih]
    · simp [splitNlAux, h, ih]

theorem splitNlAux_no_nl (s : PyStr) : ∀ acc, '\n' ∉ s →
    splitNlAux acc s = [acc.reverse ++ s] := by
  induction s with
  | nil => intro acc _; simp [splitNlAux]
  | cons c cs ih =>
    intro acc h
    rw [List.mem_cons] at h
    push_neg at h
    have hc : ¬c = '\n' := fun hc => h.1 hc.symm
    rw [splitNlAux, if_neg hc, ih _ h.2]
    simp

theorem splitNl_no_nl (s : PyStr) (h : '\n' ∉ s) : splitNl s = [s] := by
  simpa using splitNlAux_no_nl s [] h

theorem splitNl_joinWith (ls : List PyStr) (h : ls ≠ []) :
    splitNl (joinWith (S "\n") ls) = ls.flatMap splitNl := by
  induction ls with
  | nil => exact absurd rfl h
  | cons a ls ih =>
    cases ls with
    | nil => simp [joinWith, splitNl]
    | cons b t =>
      have hjoin : joinWith (S "\n") (a :: b :: t) = a ++ '\n' :: joinWith (S "\n") (b :: t) := by
        show a ++ S "\n" ++ joinWith (S "\n") (b :: t) = _
        simp [S]
      rw [List.flatMap_cons, ← ih (by simp), splitNl, hjoin, splitNlAux_append]
      rfl

theorem flatMap_splitNl_of_no_nl (ls : List PyStr) (h : ∀ l ∈ ls, '\n' ∉ l) :
    ls.flatMap splitNl = ls := by
  induction ls with
  | nil => rfl
  | cons a ls ih =>
    rw [List.flatMap_cons, splitNl_no_nl a (h a (by simp)), ih fun l hl => h l (by simp [hl])]
    rfl

theorem joinWith_ne_nil_head (sep : PyStr) (x : PyStr) (xs : List PyStr) (h : x ≠ []) :
    joinWith sep (x :: xs) ≠ [] := by
  cases xs with
  | nil => simpa [joinWith] using h
  | cons y ys =>
    show x ++ sep ++ joinWith sep (y :: ys) ≠ []
    simp [h]

/-! Helper lemmas about word splitting. -/

theorem splitWordsAux_sound (s : PyStr) : ∀ acc, (∀ c ∈ acc, isPySpace c = false) →
    ∀ w ∈ splitWordsAux acc s, w ≠ [] ∧ ∀ c ∈ w, isPySpace c = false := by
  induction s with
  | nil =>
    intro acc hacc w hw
    by_cases ha : acc = []
    · subst ha; simp [splitWordsAux] at hw
    · rw [splitWordsAux, if_neg (by simpa using ha)] at hw
      rw [List.mem_singleton] at hw
      subst hw
      exact ⟨by simpa using ha, fun c hc => hacc c (by simpa using hc)⟩
  | cons c cs ih =>
    intro acc hacc w hw
    by_cases hsp : isPySpace c
    · rw [splitWordsAux, if_pos hsp] at hw
      by_cases ha : acc = []
      · subst ha; rw [if_pos (by simp)] at hw
        exact ih [] (by simp) w hw
      · rw [if_neg (by simpa using ha), List.mem_cons] at hw
        rcases hw with hw | hw
        · subst hw
          exact ⟨by simpa using ha, fun d hd => hacc d (by simpa using hd)⟩
        · exact ih [] (by simp) w hw
    · rw [splitWordsAux, if_neg hsp] at hw
      refine ih (c :: acc) ?_ w hw
      intro d hd
      rcases List.mem_cons.mp hd with hd | hd
      · subst hd; simpa using hsp
      · exact hacc d hd

theorem splitWords_sound (s : PyStr) :
    ∀ w ∈ splitWords s, w ≠ [] ∧ ∀ c ∈ w, isPySpace c = false :=
  splitWordsAux_sound s [] (by simp)

theorem splitWordsAux_ne_nil (s : PyStr) : ∀ acc, acc ≠ [] → splitWordsAux acc s ≠ [] := by
  induction s with
  | nil => intro acc ha; simp [splitWordsAux, ha]
  | cons c cs ih =>
    intro acc ha
    by_cases hsp : isPySpace c
    · rw [splitWordsAux, if_pos hsp]
      simp [ha]
    · rw [splitWordsAux, if_neg hsp]
      exact ih (c :: acc) (by simp)

theorem splitWords_cons_ne_nil (c : Char) (cs : PyStr) (h : isPySpace c = false) :
    splitWords (c :: cs) ≠ [] := by
  rw [splitWords, splitWordsAux, if_neg (by simp [h])]
  exact splitWordsAux_ne_nil cs [c] (by simp)

/-! Helper lemmas about greedy wrapping. -/

theorem joinSp_append_cons (xs : List PyStr) (w : PyStr) (h : xs ≠ []) :
    joinSp (xs ++ [w]) = joinSp xs ++ ' ' :: w := by
  induction xs with
  | nil => exact absurd rfl h
  | cons x xs ih =>
    cases xs with
    | nil => simp [joinSp, joinWith]
    | cons y ys =>
      have hx : joinSp ((x :: y :: ys) ++ [w]) =
          x ++ [' '] ++ joinSp ((y :: ys) ++ [w]) := rfl
      have hx2 : joinSp (x :: y :: ys) = x ++ [' '] ++ joinSp (y :: ys) := rfl
      rw [hx, ih (by simp), hx2]
      simp

theorem wrapAccum_flatten (aR : Nat) (ws : List PyStr) : ∀ a cur len,
    (wrapAccum aR a cur len ws).flatten = cur.reverse ++ ws := by
  induction ws with
  | nil => intro a cur len; simp [wrapAccum]
  | cons w ws ih =>
    intro a cur len
    rw [wrapAccum]
    split
    · rw [ih]; simp
    · rw [List.flatten_cons, ih]; simp

theorem wrapAccum_ne_nil (aR : Nat) (ws : List PyStr) : ∀ a cur len,
    wrapAccum aR a cur len ws ≠ [] := by
  cases ws with
  | nil => intro a cur len; simp [wrapAccum]
  | cons w ws => intro a cur len; rw [wrapAccum]; split <;> simp [wrapAccum_ne_nil]

theorem wrapAccum_groups_ne_nil (aR : Nat) (ws : List PyStr) : ∀ a cur len, cur ≠ [] →
    ∀ g ∈ wrapAccum aR a cur len ws, g ≠ [] := by
  induction ws with
  | nil =>
    intro a cur len hcur g hg
    rw [wrapAccum, List.mem_singleton] at hg
    subst hg; simpa using hcur
  | cons w ws ih =>
    intro a cur len hcur g hg
    rw [wrapAccum] at hg
    split at hg
    · exact ih _ _ _ (by simp) g hg
    · rcases List.mem_cons.mp hg with hg | hg
      · subst hg; simpa using hcur
      · exact ih _ _ _ (by simp) g hg

theorem wrapAccum_bounds (aR : Nat) (ws : List PyStr) : ∀ a cur len, cur ≠ [] →
    len = (joinSp cur.reverse).length →
    (len ≤ a ∨ ∃ w, cur = [w]) →
    ∃ g0 gs, wrapAccum aR a cur len ws = g0 :: gs ∧
      ((joinSp g0).length ≤ a ∨ ∃ w, g0 = [w]) ∧
      ∀ g ∈ gs, (joinSp g).length ≤ aR ∨ ∃ w, g = [w] := by
  induction ws with
  | nil =>
    intro a cur len hcur hlen hok
    refine ⟨cur.reverse, [], by rw [wrapAccum], ?_, by simp⟩
    rcases hok with hok | ⟨w, hw⟩
    · exact Or.inl (by rw [← hlen]; exact hok)
    · exact Or.inr ⟨w, by rw [hw]; rfl⟩
  | cons w ws ih =>
    intro a cur len hcur hlen hok
    rw [wrapAccum]
    split
    · rename_i hfit
      have hlen' : len + 1 + w.length = (joinSp (w :: cur).reverse).length := by
        rw [List.reverse_cons, joinSp_append_cons _ _ (by simpa using hcur), hlen]
        simp
        omega
      exact ih a (w :: cur) (len + 1 + w.length) (by simp) hlen' (Or.inl hfit)
    · obtain ⟨g0, gs, heq, hg0, hgs⟩ :=
        ih aR [w] w.length (by simp) (by simp [joinSp, joinWith]) (Or.inr ⟨w, rfl⟩)
      refine ⟨cur.reverse, g0 :: gs, by rw [heq], ?_, ?_⟩
      · rcases hok with hok | ⟨v, hv⟩
        · exact Or.inl (by rw [← hlen]; exact hok)
        · exact Or.inr ⟨v, by rw [hv]; rfl⟩
      · intro g hg
        rcases List.mem_cons.mp hg with hg | hg
        · subst hg; exact hg0
        · exact hgs g hg

theorem joinSp_ne_nil (g : List PyStr) (hg : g ≠ []) (h : ∀ x ∈ g, x ≠ []) :
    joinSp g ≠ [] := by
  cases g with
  | nil => exact absurd rfl hg
  | cons x xs =>
    cases xs with
    | nil => simpa [joinSp, joinWith] using h x (by simp)
    | cons y ys =>
      show x ++ [' '] ++ joinWith [' '] (y :: ys) ≠ []
      simp [h x (by simp)]

theorem mem_joinSp (g : List PyStr) (c : Char) (hc : c ∈ joinSp g) :
    c = ' ' ∨ ∃ w ∈ g, c ∈ w := by
  induction g with
  | nil => simp [joinSp, joinWith] at hc
  | cons x xs ih =>
    cases xs with
    | nil =>
      simp only [joinSp, joinWith] at hc
      exact Or.inr ⟨x, by simp, hc⟩
    | cons y ys =>
      rw [show joinSp (x :: y :: ys) = x ++ [' '] ++ joinWith [' '] (y :: ys) from rfl] at hc
      rcases List.mem_append.mp hc with hc | hc
      · rcases List.mem_append.mp hc with hc | hc
        · exact Or.inr ⟨x, by simp, hc⟩
        · exact Or.inl (by simpa using hc)
      · rcases ih hc with hc | ⟨w, hw, hcw⟩
        · exact Or.inl hc
        · exact Or.inr ⟨w, by simp [hw], hcw⟩

theorem wrapLines_mem_sound (width : Nat) (ind : PyStr) (ws : List PyStr)
    (hne : ∀ w ∈ ws, w ≠ []) (hsp : ∀ w ∈ ws, ∀ c ∈ w, isPySpace c = false)
    (hind : '\n' ∉ ind) :
    ∀ l ∈ wrapLines width ind ws, l ≠ [] ∧ '\n' ∉ l := by
  intro l hl
  cases ws with
  | nil => simp [wrapLines, wrapGroups] at hl
  | cons w0 ws' =>
    rw [wrapLines] at hl
    rw [wrapGroups] at hl
    obtain ⟨g0, gs, heq⟩ : ∃ g0 gs,
        wrapAccum (width - ind.length) width [w0] w0.length ws' = g0 :: gs := by
      rcases h : wrapAccum (width - ind.length) width [w0] w0.length ws' with _ | ⟨g0, gs⟩
      · exact absurd h (wrapAccum_ne_nil _ _ _ _ _)
      · exact ⟨g0, gs, rfl⟩
    rw [heq] at hl
    have hflat := wrapAccum_flatten (width - ind.length) ws' width [w0] w0.length
    rw [heq] at hflat
    have hmemws : ∀ g ∈ g0 :: gs, ∀ x ∈ g, x ∈ w0 :: ws' := by
      intro g hg x hx
      have : x ∈ (g0 :: gs).flatten := List.mem_flatten.mpr ⟨g, hg, hx⟩
      rw [hflat] at this; simpa using this
    have hgne : ∀ g ∈ g0 :: gs, g ≠ [] := by
      intro g hg
      rw [← heq] at hg
      exact wrapAccum_groups_ne_nil _ _ _ _ _ (by simp) g hg
    have hjoin : ∀ g ∈ g0 :: gs, joinSp g ≠ [] ∧ '\n' ∉ joinSp g := by
      intro g hg
      constructor
      · exact joinSp_ne_nil g (hgne g hg) fun x hx => hne x (hmemws g hg x hx)
      · intro hmem
        rcases mem_joinSp g '\n' hmem with h | ⟨w, hw, hcw⟩
        · simp at h
        · have := hsp w (hmemws g hg w hw) '\n' hcw
          simp [isPySpace] at this
    rw [List.mem_cons] at hl
    rcases hl with hl | hl
    · subst hl; exact hjoin g0 (by simp)
    · rw [List.mem_map] at hl
      obtain ⟨g, hg, rfl⟩ := hl
      obtain ⟨h1, h2⟩ := hjoin g (by simp [hg])
      refine ⟨by simp [h1], ?_⟩
      intro hmem
      rcases List.mem_append.mp hmem with hmem | hmem
      · exact hind hmem
      · exact h2 hmem

theorem wrapLines_bounds (width : Nat) (ind : PyStr) (ws : List PyStr)
    (hne : ∀ w ∈ ws, w ≠ []) :
    ∀ l ∈ wrapLines width ind ws, l.length ≤ width ∨ ∃ w ∈ ws, l = w ∨ l = ind ++ w := by
  intro l hl
  cases ws with
  | nil => simp [wrapLines, wrapGroups] at hl
  | cons w0 ws' =>
    rw [wrapLines, wrapGroups] at hl
    obtain ⟨g0, gs, heq, hg0, hgs⟩ :=
      wrapAccum_bounds (width - ind.length) ws' width [w0] w0.length (by simp)
        (by simp [joinSp, joinWith]) (Or.inr ⟨w0, rfl⟩)
    rw [heq] at hl
    have hflat := wrapAccum_flatten (width - ind.length) ws' width [w0] w0.length
    rw [heq] at hflat
    have hmemws : ∀ g ∈ g0 :: gs, ∀ x ∈ g, x ∈ w0 :: ws' := by
      intro g hg x hx
      have : x ∈ (g0 :: gs).flatten := List.mem_flatten.mpr ⟨g, hg, hx⟩
      rw [hflat] at this; simpa using this
    rw [List.mem_cons] at hl
    rcases hl with hl | hl
    · subst hl
      rcases hg0 with h | ⟨w, hw⟩
      · exact Or.inl h
      · subst hw
        exact Or.inr ⟨w, hmemws [w] (by simp) w (by simp), Or.inl rfl⟩
    · rw [List.mem_map] at hl
      obtain ⟨g, hg, rfl⟩ := hl
      rcases hgs g hg with h | ⟨w, hw⟩
      · by_cases hle : ind.length ≤ width
        · refine Or.inl ?_
          rw [List.length_append]
          calc ind.length + (joinSp g).length ≤ ind.length + (width - ind.length) :=
                Nat.add_le_add_left h _
            _ = width := Nat.add_sub_cancel' hle
        · have hz : width - ind.length = 0 := Nat.sub_eq_zero_of_le (Nat.le_of_not_le hle)
          rw [hz, Nat.le_zero, List.length_eq_zero] at h
          have hgne : g ≠ [] :=
            wrapAccum_groups_ne_nil (width - ind.length) ws' width [w0] w0.length (by simp) g
              (by rw [heq]; simp [hg])
          exact absurd h (joinSp_ne_nil g hgne fun x hx =>
            hne x (hmemws g (by simp [hg]) x hx))
      · subst hw
        exact Or.inr ⟨w, hmemws [w] (by simp [hg]) w (by simp), Or.inr rfl⟩

theorem wrapLines_ne_nil (width : Nat) (ind : PyStr) (ws : List PyStr) (h : ws ≠ []) :
    wrapLines width ind ws ≠ [] := by
  cases ws with
  | nil => exact absurd rfl h
  | cons w0 ws' =>
    rw [wrapLines, wrapGroups]
    rcases heq : wrapAccum (width - ind.length) width [w0] w0.length ws' with _ | ⟨g0, gs⟩
    · exact absurd heq (wrapAccum_ne_nil _ _ _ _ _)
    · simp

/-! Helper lemmas about the rendered from-import block. -/

theorem splitWords_rawstr_ne_nil (root : PyStr) (tup : PyStr × List PyStr) (h : tup.2 ≠ []) :
    splitWords (rawstrOf root tup) ≠ [] := by
  rw [rawstrOf, if_neg (by simpa using h), fromModuleStr]
  simp only [List.append_assoc]
  have hx : (S "from " ++ (root ++ (S "." ++ (tup.1 ++ (S " import (" ++
      (joinWith (S ", ") tup.2 ++ S ",)")))))) =
      'f' :: (S "rom " ++ (root ++ (S "." ++ (tup.1 ++ (S " import (" ++
      (joinWith (S ", ") tup.2 ++ S ",)")))))) := rfl
  rw [hx]
  exact splitWords_cons_ne_nil _ _ (by decide)

theorem nlIndent_no_nl (root : PyStr) (tup : PyStr × List PyStr) :
    '\n' ∉ nlIndentOf root tup := by
  rw [nlIndentOf]
  intro hmem
  have := List.eq_of_mem_replicate hmem
  simp at this

theorem splitNl_packFromimport (root : PyStr) (tup : PyStr × List PyStr) (h : tup.2 ≠ []) :
    splitNl (packFromimport root tup) =
      wrapLines 79 (nlIndentOf root tup) (splitWords (rawstrOf root tup)) := by
  have hsound := splitWords_sound (rawstrOf root tup)
  have hlines := wrapLines_mem_sound 79 (nlIndentOf root tup) (splitWords (rawstrOf root tup))
    (fun w hw => (hsound w hw).1) (fun w hw => (hsound w hw).2) (nlIndent_no_nl root tup)
  rw [packFromimport,
    splitNl_joinWith _ (wrapLines_ne_nil _ _ _ (splitWords_rawstr_ne_nil root tup h))]
  exact flatMap_splitNl_of_no_nl _ fun l hl => (hlines l hl).2

theorem packFromimport_ne_nil (root : PyStr) (tup : PyStr × List PyStr) (h : tup.2 ≠ []) :
    packFromimport root tup ≠ [] := by
  rw [packFromimport]
  rcases hl : wrapLines 79 (nlIndentOf root tup) (splitWords (rawstrOf root tup)) with _ | ⟨l0, ls⟩
  · exact absurd hl (wrapLines_ne_nil _ _ _ (splitWords_rawstr_ne_nil root tup h))
  · have hsound := splitWords_sound (rawstrOf root tup)
    have hlines := wrapLines_mem_sound 79 (nlIndentOf root tup) (splitWords (rawstrOf root tup))
      (fun w hw => (hsound w hw).1) (fun w hw => (hsound w hw).2) (nlIndent_no_nl root tup)
    exact joinWith_ne_nil_head _ l0 ls (hlines l0 (by rw [hl]; simp)).1

theorem splitNl_makeFromimportStr_no_nil (fi : List (PyStr × List PyStr)) (root : PyStr)
    (hf : fi ≠ []) (hfi : ∀ tup ∈ fi, tup.2 ≠ []) :
    [] ∉ splitNl (makeFromimportStr fi root) := by
  rw [makeFromimportStr, splitNl_joinWith _ (by simpa using hf)]
  intro hmem
  rw [List.mem_flatMap] at hmem
  obtain ⟨p, hp, hmem⟩ := hmem
  rw [List.mem_map] at hp
  obtain ⟨tup, htup, rfl⟩ := hp
  rw [splitNl_packFromimport _ _ (hfi tup htup)] at hmem
  have hsound := splitWords_sound (rawstrOf (dotAdjust root) tup)
  have hlines := wrapLines_mem_sound 79 (nlIndentOf (dotAdjust root) tup)
    (splitWords (rawstrOf (dotAdjust root) tup))
    (fun w hw => (hsound w hw).1) (fun w hw => (hsound w hw).2) (nlIndent_no_nl _ tup)
  exact (hlines [] hmem).1 rfl

theorem makeFromimportStr_ne_nil (t0 : PyStr × List PyStr) (rest : List (PyStr × List PyStr))
    (root : PyStr) (h : t0.2 ≠ []) :
    makeFromimportStr (t0 :: rest) root ≠ [] := by
  rw [makeFromimportStr, List.map_cons]
  exact joinWith_ne_nil_head _ _ _ (packFromimport_ne_nil _ t0 h)

theorem splitNl_makeImportsStr (imports : List PyStr) (root : PyStr) (h : imports ≠ [])
    (hm : '\n' ∉ root) (hi : ∀ n ∈ imports, '\n' ∉ n) :
    splitNl (makeImportsStr imports root) =
      imports.map fun n => S "from " ++ root ++ S " import " ++ n := by
  rw [makeImportsStr, splitNl_joinWith _ (by simpa using h)]
  apply flatMap_splitNl_of_no_nl
  intro l hl
  rw [List.mem_map] at hl
  obtain ⟨n, hn, rfl⟩ := hl
  intro hmem
  simp only [List.append_assoc, List.mem_append] at hmem
  rcases hmem with hmem | hmem | hmem | hmem
  · exact absurd hmem (by decide)
  · exact hm hmem
  · exact absurd hmem (by decide)
  · exact hi n hn hmem

theorem makeImportsStr_ne_nil (n0 : PyStr) (rest : List PyStr) (root : PyStr) :
    makeImportsStr (n0 :: rest) root ≠ [] := by
  rw [makeImportsStr, List.map_cons]
  refine joinWith_ne_nil_head _ _ _ ?_
  simp [S]

theorem initstr_parts (modname : PyStr) (imports : List PyStr)
    (fi : List (PyStr × List PyStr)) :
    initstr modname imports fi false = joinWith (S "\n")
      (([makeImportsStr imports modname, makeFromimportStr fi modname]).filter
        fun s => 0 < s.length) := by
  simp [initstr]

theorem initstr_false_both (modname : PyStr) (imports : List PyStr)
    (fi : List (PyStr × List PyStr))
    (hIne : makeImportsStr imports modname ≠ [])
    (hFne : makeFromimportStr fi modname ≠ []) :
    initstr modname imports fi false =
      makeImportsStr imports modname ++ '\n' :: makeFromimportStr fi modname := by
  rw [initstr_parts,
    List.filter_cons_of_pos (by simp only [decide_eq_true_eq]; exact List.length_pos.mpr hIne),
    List.filter_cons_of_pos (by simp only [decide_eq_true_eq]; exact List.length_pos.mpr hFne),
    List.filter_nil]
  show _ ++ S "\n" ++ _ = _
  simp [S, joinWith]

theorem initstr_false_left (modname : PyStr) (imports : List PyStr)
    (fi : List (PyStr × List PyStr))
    (hIne : makeImportsStr imports modname ≠ [])
    (hFnil : makeFromimportStr fi modname = []) :
    initstr modname imports fi false = makeImportsStr imports modname := by
  rw [initstr_parts, hFnil,
    List.filter_cons_of_pos (by simp only [decide_eq_true_eq]; exact List.length_pos.mpr hIne),
    List.filter_cons_of_neg (by simp), List.filter_nil]
  rfl

theorem initstr_false_right (modname : PyStr) (imports : List PyStr)
    (fi : List (PyStr × List PyStr))
    (hInil : makeImportsStr imports modname = [])
    (hFne : makeFromimportStr fi modname ≠ []) :
    initstr modname imports fi false = makeFromimportStr fi modname := by
  rw [initstr_parts, hInil, List.filter_cons_of_neg (by simp),
    List.filter_cons_of_pos (by simp only [decide_eq_true_eq]; exact List.length_pos.mpr hFne),
    List.filter_nil]
  rfl

/-- C1, counterexample: on the Scenario A package the rendered block is
not the string the spec claims — the code emits `from pkg import a`
lines, not `import pkg.a`, and a parenthesised from-import. -/
theorem scenarioA_render_ne_spec :
    initstr (S "pkg") [S "a", S "b"] [(S "a", [S "foo"]), (S "b", [])] false ≠
      S "import pkg.a\nimport pkg.b\nfrom pkg.a import foo," := by decide

/-- C1, amended: on the Scenario A package the plan is
`[(a, [foo]), (b, [])]` as claimed, and the rendered block is
`from pkg import a\nfrom pkg import b\nfrom pkg.a import (foo,)\n`
(a trailing newline arising from `b`'s empty from-import part). -/
theorem scenarioA_plan_and_render :
    staticParseImports envA none =
      .ok (S "pkg", [S "a", S "b"], [(S "a", [S "foo"]), (S "b", [])]) ∧
    initstr (S "pkg") [S "a", S "b"] [(S "a", [S "foo"]), (S "b", [])] false =
      S "from pkg import a\nfrom pkg import b\nfrom pkg.a import (foo,)\n" :=
  ⟨rfl, by decide⟩

/-- C6: on the Scenario C init file the heuristic scan yields
`startline = 3`, `endline = 4` (the total line count), and the merge
replaces everything from line 3 on. -/
theorem scenarioC_boundaries :
    scanLines [S "\"\"\"doc\"\"\"\n", S "from __future__ import x\n",
        S "# comment\n", S "old_code_here\n"] =
      ⟨3, 4, false, []⟩ ∧
    mergePure [S "\"\"\"doc\"\"\"\n", S "from __future__ import x\n",
        S "# comment\n", S "old_code_here\n"] (S "NEW") =
      some (S "\"\"\"doc\"\"\"\nfrom __future__ import x\n# comment\nNEW") := by
  refine ⟨by decide, by decide⟩

/-- C2, counterexample: after merging, the original content at/after
`end_line` is not byte-identical in the output — the final `rstrip`
removes the file's trailing newline. -/
theorem merge_strips_trailing_newline :
    mergePure [S "# <AUTOGEN_INIT>\n", S "# </AUTOGEN_INIT>\n", S "tail\n"] (S "x") =
      some (S "# <AUTOGEN_INIT>\nx\n# </AUTOGEN_INIT>\ntail") ∧
    (S "# </AUTOGEN_INIT>\ntail\n").isSuffixOf
      (S "# <AUTOGEN_INIT>\nx\n# </AUTOGEN_INIT>\ntail") = false := by
  refine ⟨by decide, by decide⟩

/-- C3, counterexample: a plan whose first entry has no public callables
still contributes a newline separator inside the from-import join, so the
rendered block contains a stray blank line. -/
theorem initstr_blank_line_from_empty_entry :
    initstr (S "pkg") [S "b", S "a"] [(S "b", []), (S "a", [S "foo"])] false =
      S "from pkg import b\nfrom pkg import a\n\nfrom pkg.a import (foo,)" ∧
    [] ∈ splitNl (initstr (S "pkg") [S "b", S "a"]
      [(S "b", []), (S "a", [S "foo"])] false) := by
  refine ⟨by decide, by decide⟩

/-- C4, counterexample: a rendered from-import line of 83 characters
every one of whose words (hence identifiers) is at most 79 characters
long — the overlong line is indent plus one 62-character word. -/
theorem fromimport_line_over_width :
    splitNl (makeFromimportStr [(S "sub", [S "a", List.replicate 60 'b'])] (S "pkg")) =
      [S "from pkg.sub import (a,",
       List.replicate 21 ' ' ++ List.replicate 60 'b' ++ S ",)"] ∧
    79 < (List.replicate 21 ' ' ++ List.replicate 60 'b' ++ S ",)").length ∧
    ∀ w ∈ splitWords (List.replicate 21 ' ' ++ List.replicate 60 'b' ++ S ",)"),
      w.length ≤ 79 := by
  refine ⟨by decide, by decide, by decide⟩

/-- C5, counterexample: with an explicit submodule list containing an
unresolvable name, plan construction fails with the `TypeError` from
`open(None)`, not with the resolution error (`ValueError`) the root
resolution path uses. -/
theorem explicit_unresolved_not_resolution_error :
    staticParseImports envU (some [S "m"]) = .error .typeError ∧
    PyError.typeError ≠ PyError.valueError :=
  ⟨rfl, by decide⟩

/-- C7, counterexample: the scan does not stop at the first end marker —
in a file with marker pairs at lines 0/1 and 2/3 the final boundaries are
`startline = 3`, `endline = 3`, not the first pair's `1`/`1`. -/
theorem scan_continues_after_end_marker :
    scanLines [S "# <AUTOGEN_INIT>\n", S "# </AUTOGEN_INIT>\n",
        S "# <AUTOGEN_INIT>\n", S "# </AUTOGEN_INIT>\n"] =
      ⟨3, 3, true, []⟩ ∧
    (scanLines [S "# <AUTOGEN_INIT>\n", S "# </AUTOGEN_INIT>\n",
        S "# <AUTOGEN_INIT>\n", S "# </AUTOGEN_INIT>\n"]).endline ≠ 1 := by
  refine ⟨by decide, by decide⟩

/-- C3, amended: an entry with no public callables renders as the empty
string and the top-level component join drops empty components, but the
newline-join inside the from-import renderer keeps empty entry strings;
when every plan entry has at least one public callable (and the block is
not entirely empty) the rendered output contains no blank line. -/
theorem initstr_no_blank_lines (modname : PyStr) (imports : List PyStr)
    (fi : List (PyStr × List PyStr))
    (hm : '\n' ∉ modname) (hi : ∀ n ∈ imports, '\n' ∉ n)
    (hfi : ∀ tup ∈ fi, tup.2 ≠ [])
    (hne : imports ≠ [] ∨ fi ≠ []) :
    [] ∉ splitNl (initstr modname imports fi false) := by
  intro hmem
  by_cases hI : imports = []
  · have hF : fi ≠ [] := by
      rcases hne with h | h
      · exact absurd hI h
      · exact h
    obtain ⟨t0, rest, rfl⟩ : ∃ t0 rest, fi = t0 :: rest := by
      rcases fi with _ | ⟨t0, rest⟩
      · exact absurd rfl hF
      · exact ⟨t0, rest, rfl⟩
    have hInil : makeImportsStr imports modname = [] := by
      subst hI; rfl
    have hFne : makeFromimportStr (t0 :: rest) modname ≠ [] :=
      makeFromimportStr_ne_nil t0 rest modname (hfi t0 (by simp))
    rw [initstr_false_right modname imports _ hInil hFne] at hmem
    exact splitNl_makeFromimportStr_no_nil (t0 :: rest) modname (by simp) hfi hmem
  · obtain ⟨n0, irest, rfl⟩ : ∃ n0 irest, imports = n0 :: irest := by
      rcases imports with _ | ⟨n0, irest⟩
      · exact absurd rfl hI
      · exact ⟨n0, irest, rfl⟩
    have hIne : makeImportsStr (n0 :: irest) modname ≠ [] :=
      makeImportsStr_ne_nil n0 irest modname
    have hnotmemI : [] ∉ splitNl (makeImportsStr (n0 :: irest) modname) := by
      rw [splitNl_makeImportsStr _ _ (by simp) hm hi]
      intro hmem2
      rw [List.mem_map] at hmem2
      obtain ⟨n, _, hn⟩ := hmem2
      simp [S] at hn
    by_cases hF : fi = []
    · have hFnil : makeFromimportStr fi modname = [] := by subst hF; rfl
      rw [initstr_false_left modname _ fi hIne hFnil] at hmem
      exact hnotmemI hmem
    · obtain ⟨t0, rest, rfl⟩ : ∃ t0 rest, fi = t0 :: rest := by
        rcases fi with _ | ⟨t0, rest⟩
        · exact absurd rfl hF
        · exact ⟨t0, rest, rfl⟩
      have hFne : makeFromimportStr (t0 :: rest) modname ≠ [] :=
        makeFromimportStr_ne_nil t0 rest modname (hfi t0 (by simp))
      rw [initstr_false_both modname _ _ hIne hFne] at hmem
      rw [splitNl, splitNlAux_append] at hmem
      rcases List.mem_append.mp hmem with hmem | hmem
      · exact hnotmemI hmem
      · exact splitNl_makeFromimportStr_no_nil (t0 :: rest) modname (by simp) hfi hmem

/-- C3, witness: the amended no-blank-line statement at a concrete plan
whose entries all have public callables. -/
theorem initstr_no_blank_lines_inst :
    [] ∉ splitNl (initstr (S "pkg") [S "a"] [(S "a", [S "foo"])] false) :=
  initstr_no_blank_lines (S "pkg") [S "a"] [(S "a", [S "foo"])]
    (by decide) (by decide) (by decide) (by simp)

/-- C4, amended: every line of a rendered from-import statement is at
most 79 characters, except a line consisting of a single unsplit word,
possibly preceded by the continuation indent, when indent plus word
exceed that width; and no word is ever split — the wrapped groups
flatten back to exactly the words of the unwrapped statement. -/
theorem fromimport_wrap_width (rootmodname : PyStr) (fi : List (PyStr × List PyStr)) :
    (∀ l ∈ splitNl (makeFromimportStr fi rootmodname),
      l.length ≤ 79 ∨
      ∃ tup ∈ fi, ∃ w ∈ splitWords (rawstrOf (dotAdjust rootmodname) tup),
        l = w ∨ l = nlIndentOf (dotAdjust rootmodname) tup ++ w) ∧
    ∀ tup ∈ fi,
      (wrapGroups (79 - (nlIndentOf (dotAdjust rootmodname) tup).length) 79
        (splitWords (rawstrOf (dotAdjust rootmodname) tup))).flatten =
      splitWords (rawstrOf (dotAdjust rootmodname) tup) := by
  constructor
  · intro l hl
    rcases hfi : fi with _ | ⟨t0, rest⟩
    · subst hfi
      rw [makeFromimportStr] at hl
      simp only [List.map_nil, joinWith] at hl
      rw [show splitNl ([] : PyStr) = [[]] from rfl] at hl
      rw [List.mem_singleton] at hl
      subst hl
      exact Or.inl (by simp)
    · subst hfi
      rw [makeFromimportStr, splitNl_joinWith _ (by simp)] at hl
      rw [List.mem_flatMap] at hl
      obtain ⟨p, hp, hl⟩ := hl
      rw [List.mem_map] at hp
      obtain ⟨tup, htup, rfl⟩ := hp
      by_cases h2 : tup.2 = []
      · have hnil : packFromimport (dotAdjust rootmodname) tup = [] := by
          rw [packFromimport, rawstrOf, if_pos (by simpa using h2)]
          rfl
        rw [hnil, show splitNl ([] : PyStr) = [[]] from rfl, List.mem_singleton] at hl
        subst hl
        exact Or.inl (by simp)
      · rw [splitNl_packFromimport _ _ h2] at hl
        have hsound := splitWords_sound (rawstrOf (dotAdjust rootmodname) tup)
        rcases wrapLines_bounds 79 _ _ (fun w hw => (hsound w hw).1) l hl with
          hb | ⟨w, hw, hshape⟩
        · exact Or.inl hb
        · exact Or.inr ⟨tup, htup, w, hw, hshape⟩
  · intro tup _
    rcases hws : splitWords (rawstrOf (dotAdjust rootmodname) tup) with _ | ⟨w0, ws'⟩
    · rfl
    · rw [wrapGroups]
      simpa using wrapAccum_flatten
        (79 - (nlIndentOf (dotAdjust rootmodname) tup).length) ws' 79 [w0] w0.length

/-! Helper lemmas about plan construction. -/

theorem buildFromImports_all_some (cd : PyStr → List PyStr) (pairs : List (PyStr × PyStr)) :
    buildFromImports cd ((pairs.map fun pr => some pr.2).zip (pairs.map fun pr => pr.1)) =
      .ok (pairs.map fun pr => (pr.1, validCallnames (cd pr.2))) := by
  induction pairs with
  | nil => rfl
  | cons pr rest ih =>
    have ih2 : buildFromImports cd
        (List.zipWith Prod.mk (rest.map fun pr => some pr.2) (rest.map fun pr => pr.1)) =
        Except.ok (rest.map fun pr => (pr.1, validCallnames (cd pr.2))) := ih
    simp only [List.map_cons, List.zip_cons_cons, buildFromImports, ih2]

theorem validCallnames_mem (cl : List PyStr) :
    ∀ c ∈ validCallnames cl, (S "_").isPrefixOf c = false ∧ c.contains '.' = false := by
  intro c hc
  rw [validCallnames, List.mem_filter] at hc
  have h := hc.2
  rw [Bool.and_eq_true, Bool.not_eq_true', Bool.not_eq_true'] at h
  exact ⟨h.2, h.1⟩

theorem enumFilterList_no_underscore (modname : PyStr) (tm : PyStr → PyStr) :
    ∀ ps, ∀ pr ∈ enumFilterList modname tm ps, (S "_").isPrefixOf pr.1 = false := by
  intro ps
  induction ps with
  | nil => intro pr hpr; simp [enumFilterList] at hpr
  | cons p rest ih =>
    intro pr hpr
    rw [enumFilterList] at hpr
    split at hpr
    · exact ih pr hpr
    · rcases List.mem_cons.mp hpr with hpr | hpr
      · subst hpr
        rename_i hcond
        rw [Bool.eq_false_iff]
        intro habs
        exact hcond habs
      · exact ih pr hpr

/-- C9: in enumeration mode every underscore-prefixed relative name is
excluded entirely (no plan entry, hence no import line and no callable
extraction), the import-line list is exactly the retained relative names,
and retained entries carry only callables that neither start with an
underscore nor contain a dot. -/
theorem enumeration_filtering (env : StaticEnv) :
    staticParseImports env none =
      .ok (env.modname,
        (enumFilterList env.modname env.toModname env.packagePaths).map (fun pr => pr.1),
        (enumFilterList env.modname env.toModname env.packagePaths).map fun pr =>
          (pr.1, validCallnames (env.calldefs pr.2))) ∧
    (∀ pr ∈ enumFilterList env.modname env.toModname env.packagePaths,
      (S "_").isPrefixOf pr.1 = false) ∧
    ∀ pr ∈ enumFilterList env.modname env.toModname env.packagePaths,
      ∀ c ∈ validCallnames (env.calldefs pr.2),
        (S "_").isPrefixOf c = false ∧ c.contains '.' = false := by
  refine ⟨?_, enumFilterList_no_underscore env.modname env.toModname env.packagePaths,
    fun pr _ => validCallnames_mem (env.calldefs pr.2)⟩
  rw [staticParseImports]
  rw [buildFromImports_all_some env.calldefs
    (enumFilterList env.modname env.toModname env.packagePaths)]

/-- C5, amended: with an explicit submodule list containing an
unresolvable name, plan construction does fail — but with the `TypeError`
raised when opening the `None` path, not with a resolution error naming
the offending module. -/
theorem explicit_unresolved_fails (env : StaticEnv) (ms : List PyStr)
    (h : ∃ m ∈ ms, env.resolve (env.modname ++ '.' :: m) = none) :
    staticParseImports env (some ms) = .error .typeError := by
  rw [staticParseImports]
  suffices hb : buildFromImports env.calldefs
      ((ms.map fun m => env.resolve (env.modname ++ '.' :: m)).zip ms) = .error .typeError by
    rw [hb]
  induction ms with
  | nil => simp at h
  | cons m0 rest ih =>
    obtain ⟨m, hm, hnone⟩ := h
    rcases List.mem_cons.mp hm with hm | hm
    · subst hm
      simp only [List.map_cons, List.zip_cons_cons, hnone, buildFromImports]
    · rcases hr : env.resolve (env.modname ++ '.' :: m0) with _ | p
      · simp only [List.map_cons, List.zip_cons_cons, hr, buildFromImports]
      · simp only [List.map_cons, List.zip_cons_cons, hr, buildFromImports]
        rw [ih ⟨m, hm, hnone⟩]

/-- C5, witness: the amended failure statement at a concrete environment
where the single listed name does not resolve. -/
theorem explicit_unresolved_fails_inst :
    staticParseImports envU (some [S "m"]) = .error .typeError :=
  explicit_unresolved_fails envU [S "m"] ⟨S "m", by simp, rfl⟩

/-- C10: with an explicit submodule list no underscore filtering is
applied to the listed names — every name, underscore-prefixed or not,
yields its plan entry (with only the per-callable filter applied) and its
rendered import line; the underscore skip exists only in the enumeration
branch. -/
theorem explicit_list_unfiltered (env : StaticEnv) (ms : List PyStr)
    (h : ∀ m ∈ ms, (env.resolve (env.modname ++ '.' :: m)).isSome = true)
    (hm : '\n' ∉ env.modname) (hms : ∀ m ∈ ms, '\n' ∉ m) (hne : ms ≠ []) :
    staticParseImports env (some ms) =
      .ok (env.modname, ms, ms.map fun m =>
        (m, validCallnames (env.calldefs ((env.resolve (env.modname ++ '.' :: m)).getD [])))) ∧
    splitNl (makeImportsStr ms env.modname) =
      ms.map fun m => S "from " ++ env.modname ++ S " import " ++ m := by
  refine ⟨?_, splitNl_makeImportsStr ms env.modname hne hm hms⟩
  clear hm hms hne
  rw [staticParseImports]
  suffices hb : buildFromImports env.calldefs
      ((ms.map fun m => env.resolve (env.modname ++ '.' :: m)).zip ms) =
      .ok (ms.map fun m =>
        (m, validCallnames (env.calldefs ((env.resolve (env.modname ++ '.' :: m)).getD [])))) by
    rw [hb]
  induction ms with
  | nil => rfl
  | cons m0 rest ih =>
    rcases hr : env.resolve (env.modname ++ '.' :: m0) with _ | p
    · have := h m0 (by simp)
      rw [hr] at this
      simp at this
    · simp only [List.map_cons, List.zip_cons_cons, hr, buildFromImports]
      rw [ih fun m hm2 => h m (by simp [hm2])]
      simp [hr]

/-- C10, witness: a concrete explicit list containing an
underscore-prefixed submodule name, which is kept, while its callables
are still filtered. -/
theorem explicit_list_unfiltered_inst :
    staticParseImports
      { modname := S "pkg", packagePaths := [], toModname := fun p => p,
        resolve := fun n => some n,
        calldefs := fun _ => [S "_priv", S "ok", S "a.b"] : StaticEnv }
      (some [S "_x", S "b"]) =
      .ok (S "pkg", [S "_x", S "b"],
        [(S "_x", [S "ok"]), (S "b", [S "ok"])]) := by
  have h := (explicit_list_unfiltered
    { modname := S "pkg", packagePaths := [], toModname := fun p => p,
      resolve := fun n => some n,
      calldefs := fun _ => [S "_priv", S "ok", S "a.b"] : StaticEnv }
    [S "_x", S "b"] (by decide) (by decide) (by decide) (by simp)).1
  rw [h]
  rfl

/-! Helper lemmas about the boundary scan. -/

theorem isBegin_isEnd_false (l : PyStr) (h : isBegin l = true) : isEnd l = false := by
  by_contra hcon
  rw [Bool.not_eq_false] at hcon
  rw [isBegin, List.isPrefixOf_iff_prefix] at h
  rw [isEnd, List.isPrefixOf_iff_prefix] at hcon
  obtain ⟨t1, e1⟩ := h
  obtain ⟨t2, e2⟩ := hcon
  have e : (S "# <AUTOGEN_INIT>" ++ t1).take 4 = (S "# </AUTOGEN_INIT>" ++ t2).take 4 := by
    rw [e1, e2]
  have g1 : (S "# <AUTOGEN_INIT>" ++ t1).take 4 = S "# <A" := rfl
  have g2 : (S "# </AUTOGEN_INIT>" ++ t2).take 4 = S "# </" := rfl
  rw [g1, g2] at e
  exact absurd e (by decide)

theorem isEnd_isBegin_false (l : PyStr) (h : isEnd l = true) : isBegin l = false := by
  by_contra hcon
  rw [Bool.not_eq_false] at hcon
  rw [isBegin_isEnd_false l hcon] at h
  exact absurd h (by simp)

theorem scanStep_inert (st : ScanState) (i : Nat) (l : PyStr)
    (hx : st.explMode = true) (hb : isBegin l = false) (he : isEnd l = false) :
    scanStep st i l = st := by
  simp [scanStep, hx, hb, he]

theorem scanStep_end (st : ScanState) (i : Nat) (l : PyStr)
    (hx : st.explMode = true) (he : isEnd l = true) :
    scanStep st i l = { st with endline := i } := by
  have hb := isEnd_isBegin_false l he
  simp [scanStep, hx, hb, he]

theorem scanStep_begin (st : ScanState) (i : Nat) (l : PyStr) (hb : isBegin l = true) :
    scanStep st i l =
      { st with startline := i + 1, explMode := true, indent := takeUntilHash l } := by
  have he := isBegin_isEnd_false l hb
  simp only [scanStep, hb, he, Bool.and_false, Bool.false_eq_true, if_false, if_true]
  split <;> split <;> split <;> simp_all

/-- C7, amended: once explicit mode is active, an end-marker line sets
`end_line` to its own index (not past it) and lines that are neither
marker leave the boundaries unchanged; but the scan does not stop — any
later begin (or end) marker continues to update `start_line`
(resp. `end_line`). -/
theorem scanStep_after_explicit (st : ScanState) (i : Nat) (l : PyStr)
    (hx : st.explMode = true) :
    (isEnd l = true → scanStep st i l = { st with endline := i }) ∧
    (isBegin l = false → isEnd l = false → scanStep st i l = st) ∧
    (isBegin l = true → scanStep st i l =
      { st with startline := i + 1, explMode := true, indent := takeUntilHash l }) :=
  ⟨fun he => scanStep_end st i l hx he,
   fun hb he => scanStep_inert st i l hx hb he,
   fun hb => scanStep_begin st i l hb⟩

/-- C7, witness: the three explicit-mode step behaviours at concrete
states and lines. -/
theorem scanStep_after_explicit_inst :
    scanStep ⟨1, 5, true, []⟩ 4 (S "# </AUTOGEN_INIT>\n") = ⟨1, 4, true, []⟩ ∧
    scanStep ⟨1, 5, true, []⟩ 6 (S "x\n") = ⟨1, 5, true, []⟩ ∧
    scanStep ⟨1, 5, true, []⟩ 7 (S "# <AUTOGEN_INIT>\n") = ⟨8, 5, true, []⟩ := by
  refine ⟨(scanStep_after_explicit ⟨1, 5, true, []⟩ 4 (S "# </AUTOGEN_INIT>\n") rfl).1
      (by decide),
    (scanStep_after_explicit ⟨1, 5, true, []⟩ 6 (S "x\n") rfl).2.1 (by decide) (by decide),
    ?_⟩
  rw [(scanStep_after_explicit ⟨1, 5, true, []⟩ 7 (S "# <AUTOGEN_INIT>\n") rfl).2.2 (by decide)]
  decide

/-! Helper lemmas about `rstrip` and the splice. -/

theorem dropWhile_append_left (p : Char → Bool) :
    ∀ (a b : List Char), (∃ c ∈ a, p c = false) →
      List.dropWhile p (a ++ b) = List.dropWhile p a ++ b := by
  intro a
  induction a with
  | nil => intro b h; simp at h
  | cons c a' ih =>
    intro b h
    by_cases hp : p c = true
    · rw [List.cons_append, List.dropWhile_cons_of_pos hp, List.dropWhile_cons_of_pos hp]
      obtain ⟨d, hd, hdp⟩ := h
      rcases List.mem_cons.mp hd with hd | hd
      · subst hd; rw [hp] at hdp; exact absurd hdp (by simp)
      · exact ih b ⟨d, hd, hdp⟩
    · rw [Bool.not_eq_true] at hp
      rw [List.cons_append, List.dropWhile_cons_of_neg (by simp [hp]),
        List.dropWhile_cons_of_neg (by simp [hp])]
      rfl

theorem pyRstrip_append (x y : PyStr) (h : ∃ c ∈ y, isPySpace c = false) :
    pyRstrip (x ++ y) = x ++ pyRstrip y := by
  obtain ⟨c, hc, hcp⟩ := h
  rw [pyRstrip, pyRstrip, List.reverse_append,
    dropWhile_append_left _ _ _ ⟨c, List.mem_reverse.mpr hc, hcp⟩,
    List.reverse_append, List.reverse_reverse]

/-- C2, amended: whatever the computed boundary, the merged text is
exactly the original lines before `start_line`, byte-identical, then the
indented rendered block, then the original lines at/after `end_line` with
only their trailing whitespace (in particular the file's final newline)
stripped — provided the tail contains any non-whitespace character at
all, nothing else of it changes. -/
theorem merge_region_preservation (lines : List PyStr) (initstrArg : PyStr)
    (h1 : (scanLines lines).startline ≤ (scanLines lines).endline)
    (h2 : ∃ c ∈ (lines.drop (scanLines lines).endline).flatten, isPySpace c = false) :
    mergePure lines initstrArg =
      some ((lines.take (scanLines lines).startline).flatten ++
        midBlock initstrArg (scanLines lines).indent ++
        pyRstrip ((lines.drop (scanLines lines).endline).flatten)) := by
  simp only [mergePure]
  rw [if_pos h1]
  have hfl : (lines.take (scanLines lines).startline ++ [midBlock initstrArg (scanLines lines).indent] ++
      lines.drop (scanLines lines).endline).flatten =
      ((lines.take (scanLines lines).startline).flatten ++
        midBlock initstrArg (scanLines lines).indent) ++
      (lines.drop (scanLines lines).endline).flatten := by
    rw [List.flatten_append, List.flatten_append, List.flatten_cons, List.flatten_nil,
      List.append_nil, List.append_assoc]
  rw [hfl, pyRstrip_append _ _ h2, List.append_assoc]

/-- C2, witness: the amended preservation statement at a concrete marked
file. -/
theorem merge_region_preservation_inst :
    mergePure [S "x\n", S "# <AUTOGEN_INIT>\n", S "old\n", S "# </AUTOGEN_INIT>\n", S "after\n"]
      (S "new") =
      some (([S "x\n", S "# <AUTOGEN_INIT>\n", S "old\n", S "# </AUTOGEN_INIT>\n",
          S "after\n"].take
          (scanLines [S "x\n", S "# <AUTOGEN_INIT>\n", S "old\n", S "# </AUTOGEN_INIT>\n",
            S "after\n"]).startline).flatten ++
        midBlock (S "new")
          (scanLines [S "x\n", S "# <AUTOGEN_INIT>\n", S "old\n", S "# </AUTOGEN_INIT>\n",
            S "after\n"]).indent ++
        pyRstrip (([S "x\n", S "# <AUTOGEN_INIT>\n", S "old\n", S "# </AUTOGEN_INIT>\n",
          S "after\n"].drop
          (scanLines [S "x\n", S "# <AUTOGEN_INIT>\n", S "old\n", S "# </AUTOGEN_INIT>\n",
            S "after\n"]).endline).flatten)) :=
  merge_region_preservation
    [S "x\n", S "# <AUTOGEN_INIT>\n", S "old\n", S "# </AUTOGEN_INIT>\n", S "after\n"]
    (S "new") (by decide) (by decide)

/-! Helper lemmas for the idempotence of the merge. -/

theorem scanFrom_append (ys : List PyStr) : ∀ (xs : List PyStr) (st : ScanState) (i : Nat),
    scanFrom st i (xs ++ ys) = scanFrom (scanFrom st i xs) (i + xs.length) ys := by
  intro xs
  induction xs with
  | nil => intro st i; simp [scanFrom]
  | cons x xs ih =>
    intro st i
    rw [List.cons_append, scanFrom, scanFrom, ih, List.length_cons]
    have harith : i + (xs.length + 1) = i + 1 + xs.length := by omega
    rw [harith]

theorem scanFrom_inert (ls : List PyStr) : ∀ (st : ScanState) (i : Nat),
    st.explMode = true → (∀ l ∈ ls, isBegin l = false ∧ isEnd l = false) →
    scanFrom st i ls = st := by
  induction ls with
  | nil => intro st i _ _; rfl
  | cons l ls ih =>
    intro st i hx hls
    rw [scanFrom, scanStep_inert st i l hx (hls l (by simp)).1 (hls l (by simp)).2]
    exact ih st (i + 1) hx fun l2 hl2 => hls l2 (by simp [hl2])

theorem scan_marked (A B C : List PyStr) (bl el : PyStr)
    (hblB : isBegin bl = true) (helE : isEnd el = true)
    (hB : ∀ l ∈ B, isBegin l = false ∧ isEnd l = false)
    (hC : ∀ l ∈ C, isBegin l = false ∧ isEnd l = false) :
    scanLines (A ++ [bl] ++ B ++ [el] ++ C) =
      ⟨A.length + 1, A.length + 1 + B.length, true, takeUntilHash bl⟩ := by
  rw [scanLines]
  rw [show A ++ [bl] ++ B ++ [el] ++ C = A ++ ([bl] ++ (B ++ ([el] ++ C))) by simp]
  rw [scanFrom_append]
  rw [show scanFrom (scanFrom ⟨0, (A ++ ([bl] ++ (B ++ ([el] ++ C)))).length, false, []⟩ 0 A)
      (0 + A.length) ([bl] ++ (B ++ ([el] ++ C))) =
    scanFrom (scanStep (scanFrom ⟨0, (A ++ ([bl] ++ (B ++ ([el] ++ C)))).length, false, []⟩ 0 A)
      (0 + A.length) bl) (0 + A.length + 1) (B ++ ([el] ++ C)) from rfl]
  rw [scanStep_begin _ _ _ hblB]
  rw [scanFrom_append]
  rw [scanFrom_inert B _ _ rfl hB]
  rw [show scanFrom
      { scanFrom ⟨0, (A ++ ([bl] ++ (B ++ ([el] ++ C)))).length, false, []⟩ 0 A with
        startline := 0 + A.length + 1, explMode := true, indent := takeUntilHash bl }
      (0 + A.length + 1 + B.length) ([el] ++ C) =
    scanFrom (scanStep
      { scanFrom ⟨0, (A ++ ([bl] ++ (B ++ ([el] ++ C)))).length, false, []⟩ 0 A with
        startline := 0 + A.length + 1, explMode := true, indent := takeUntilHash bl }
      (0 + A.length + 1 + B.length) el) (0 + A.length + 1 + B.length + 1) C from rfl]
  rw [scanStep_end _ _ _ rfl helE]
  rw [scanFrom_inert C _ _ rfl hC]
  simp

theorem take_marked (A : List PyStr) (bl : PyStr) (rest : List PyStr) :
    (A ++ [bl] ++ rest).take (A.length + 1) = A ++ [bl] := by
  have h : ((A ++ [bl]) ++ rest).take ((A ++ [bl]).length + 0) = (A ++ [bl]) ++ rest.take 0 :=
    List.take_append 0
  simpa using h

theorem drop_marked (pre rest : List PyStr) :
    (pre ++ rest).drop pre.length = rest := by
  simp

theorem mergePure_marked (A B C : List PyStr) (bl el : PyStr) (initstrArg : PyStr)
    (hblB : isBegin bl = true) (helE : isEnd el = true)
    (hB : ∀ l ∈ B, isBegin l = false ∧ isEnd l = false)
    (hC : ∀ l ∈ C, isBegin l = false ∧ isEnd l = false) :
    mergePure (A ++ [bl] ++ B ++ [el] ++ C) initstrArg =
      some (pyRstrip (A.flatten ++ (bl ++ (midBlock initstrArg (takeUntilHash bl) ++
        (el ++ C.flatten))))) := by
  simp only [mergePure, scan_marked A B C bl el hblB helE hB hC]
  rw [if_pos (by omega)]
  congr 1
  have htake : (A ++ [bl] ++ B ++ [el] ++ C).take (A.length + 1) = A ++ [bl] := by
    rw [show A ++ [bl] ++ B ++ [el] ++ C = A ++ [bl] ++ (B ++ ([el] ++ C)) by simp]
    exact take_marked A bl (B ++ ([el] ++ C))
  have hdrop : (A ++ [bl] ++ B ++ [el] ++ C).drop (A.length + 1 + B.length) = [el] ++ C := by
    rw [show A ++ [bl] ++ B ++ [el] ++ C = (A ++ [bl] ++ B) ++ ([el] ++ C) by simp]
    rw [show A.length + 1 + B.length = (A ++ [bl] ++ B).length by simp; omega]
    exact drop_marked (A ++ [bl] ++ B) ([el] ++ C)
  rw [htake, hdrop]
  rw [List.flatten_append, List.flatten_append, List.flatten_append, List.flatten_cons,
    List.flatten_cons, List.flatten_nil, List.append_nil]
  simp [List.append_assoc]

theorem wfLineB_eq (l : PyStr) (h : wfLineB l = true) :
    l = l.dropLast ++ ['\n'] ∧ '\n' ∉ l.dropLast := by
  rw [wfLineB, Bool.and_eq_true, Bool.not_eq_true'] at h
  obtain ⟨h1, h2⟩ := h
  rw [beq_iff_eq] at h2
  refine ⟨(List.dropLast_append_getLast? '\n' h2).symm, ?_⟩
  intro hmem
  have hcontains : l.dropLast.contains '\n' = true := List.elem_iff.mpr hmem
  rw [h1] at hcontains
  exact absurd hcontains (by simp)

theorem endsNonWsB_spec (s : PyStr) (h : endsNonWsB s = true) :
    s ≠ [] ∧ pyRstrip s = s := by
  rw [endsNonWsB, Bool.and_eq_true, Bool.not_eq_true'] at h
  obtain ⟨h1, h2⟩ := h
  rw [beq_iff_eq] at h2
  exact ⟨by simpa using h1, h2⟩

theorem splitKeepNlAux_append_nl (t : PyStr) : ∀ (s : PyStr) (acc : PyStr),
    splitKeepNlAux acc (s ++ '\n' :: t) =
      splitKeepNlAux acc (s ++ ['\n']) ++ splitKeepNlAux [] t := by
  intro s
  induction s with
  | nil => intro acc; simp [splitKeepNlAux]
  | cons c s' ih =>
    intro acc
    by_cases hc : c = '\n'
    · subst hc
      rw [List.cons_append, splitKeepNlAux, if_pos rfl, List.cons_append,
        splitKeepNlAux, if_pos rfl, ih]
      simp
    · rw [List.cons_append, splitKeepNlAux, if_neg hc, List.cons_append,
        splitKeepNlAux, if_neg hc, ih]

theorem splitKeepNl_line (body : PyStr) (t : PyStr) (hb : '\n' ∉ body) : ∀ acc,
    splitKeepNlAux acc (body ++ '\n' :: t) =
      (acc.reverse ++ body ++ ['\n']) :: splitKeepNlAux [] t := by
  induction body with
  | nil => intro acc; simp [splitKeepNlAux]
  | cons c b' ih =>
    intro acc
    rw [List.mem_cons] at hb
    push_neg at hb
    have hc : ¬c = '\n' := fun hc => hb.1 hc.symm
    rw [List.cons_append, splitKeepNlAux, if_neg hc, ih hb.2]
    simp

theorem splitKeepNl_final (body : PyStr) (hb : '\n' ∉ body) : ∀ acc,
    acc.reverse ++ body ≠ [] →
    splitKeepNlAux acc body = [acc.reverse ++ body] := by
  induction body with
  | nil =>
    intro acc hne
    have ha : ¬acc.isEmpty = true := by
      simp only [List.isEmpty_iff]
      intro h
      subst h
      exact hne (by simp)
    rw [splitKeepNlAux, if_neg ha]
    simp
  | cons c b' ih =>
    intro acc hne
    rw [List.mem_cons] at hb
    push_neg at hb
    have hc : ¬c = '\n' := fun hc => hb.1 hc.symm
    rw [splitKeepNlAux, if_neg hc, ih hb.2 (c :: acc) (by simp)]
    simp

theorem splitKeepNl_flatten_wf (A : List PyStr) (rest : PyStr)
    (hA : ∀ l ∈ A, wfLineB l = true) :
    splitKeepNlAux [] (A.flatten ++ rest) = A ++ splitKeepNlAux [] rest := by
  induction A with
  | nil => simp
  | cons l A' ih =>
    obtain ⟨hle, hln⟩ := wfLineB_eq l (hA l (by simp))
    rw [List.flatten_cons, List.append_assoc]
    rw [show l ++ (A'.flatten ++ rest) = l.dropLast ++ '\n' :: (A'.flatten ++ rest) from by
      conv_lhs => rw [hle]
      simp]
    rw [splitKeepNl_line l.dropLast _ hln []]
    rw [ih fun l2 hl2 => hA l2 (by simp [hl2])]
    rw [List.reverse_nil, List.nil_append, ← hle]
    simp

theorem splitKeepNl_merged (A : List PyStr) (bl : PyStr) (restText : PyStr)
    (hA : ∀ l ∈ A, wfLineB l = true) (hbl : wfLineB bl = true) :
    splitKeepNlAux [] (A.flatten ++ (bl ++ restText)) =
      A ++ bl :: splitKeepNlAux [] restText := by
  rw [splitKeepNl_flatten_wf A _ hA]
  obtain ⟨hbe, hbn⟩ := wfLineB_eq bl hbl
  rw [show bl ++ restText = bl.dropLast ++ '\n' :: restText from by
    conv_lhs => rw [hbe]
    simp]
  rw [splitKeepNl_line bl.dropLast _ hbn []]
  rw [List.reverse_nil, List.nil_append, ← hbe]

theorem splitKeepNl_midstep (ind s : PyStr) (rest : PyStr) :
    splitKeepNlAux [] (midBlock s ind ++ rest) =
      splitKeepNl (midBlock s ind) ++ splitKeepNlAux [] rest := by
  rw [midBlock, show (indentWith s ind ++ S "\n") ++ rest = indentWith s ind ++ '\n' :: rest
    from by simp [S]]
  rw [splitKeepNlAux_append_nl]
  rfl

theorem dropWhile_length_le (p : Char → Bool) : ∀ l : List Char,
    (List.dropWhile p l).length ≤ l.length := by
  intro l
  induction l with
  | nil => simp
  | cons c t ih =>
    by_cases hp : p c = true
    · rw [List.dropWhile_cons_of_pos hp]
      exact Nat.le_trans ih (by simp)
    · rw [Bool.not_eq_true] at hp
      rw [List.dropWhile_cons_of_neg (by simp [hp])]

theorem dropWhile_cons_self_head (p : Char → Bool) (c : Char) (t : List Char)
    (h : List.dropWhile p (c :: t) = c :: t) : p c = false := by
  by_contra hcon
  rw [Bool.not_eq_false] at hcon
  rw [List.dropWhile_cons_of_pos hcon] at h
  have := congrArg List.length h
  have hle : (List.dropWhile p t).length ≤ t.length := dropWhile_length_le p t
  simp at this
  omega

theorem pyRstrip_append_of_self (x y : PyStr) (hy : y ≠ []) (h : pyRstrip y = y) :
    pyRstrip (x ++ y) = x ++ y := by
  rcases hr : y.reverse with _ | ⟨c, t⟩
  · exact absurd (by simpa using hr) hy
  · have hdw : List.dropWhile isPySpace (c :: t) = c :: t := by
      have h2 : (List.dropWhile isPySpace y.reverse).reverse = y := h
      rw [hr] at h2
      have := congrArg List.reverse h2
      rw [List.reverse_reverse] at this
      rw [this, hr]
    have hc : isPySpace c = false := dropWhile_cons_self_head _ _ _ hdw
    rw [pyRstrip, List.reverse_append, hr, List.cons_append,
      List.dropWhile_cons_of_neg (by simp [hc])]
    rw [show (c :: (t ++ x.reverse)).reverse = x ++ (c :: t).reverse from by simp]
    rw [← hr, List.reverse_reverse]

theorem pyRstrip_append_newline (y : PyStr) : pyRstrip (y ++ ['\n']) = pyRstrip y := by
  rw [pyRstrip, pyRstrip]
  rw [show (y ++ ['\n']).reverse = '\n' :: y.reverse from by simp]
  rw [List.dropWhile_cons_of_pos (by decide)]

theorem mark_eq_dropLast (l : PyStr) (h : wfLineB l = true) :
    isBegin l.dropLast = isBegin l ∧ isEnd l.dropLast = isEnd l := by
  obtain ⟨hle, _⟩ := wfLineB_eq l h
  constructor
  · rw [isBegin, isBegin]
    conv_rhs => rw [hle]
    rw [pyStrip, pyStrip, pyRstrip_append_newline]
  · rw [isEnd, isEnd]
    conv_rhs => rw [hle]
    rw [pyStrip, pyStrip, pyRstrip_append_newline]

theorem splitKeepNl_line_wf (l : PyStr) (h : wfLineB l = true) (r : PyStr) :
    splitKeepNlAux [] (l ++ r) = l :: splitKeepNlAux [] r := by
  obtain ⟨hle, hln⟩ := wfLineB_eq l h
  rw [show l ++ r = l.dropLast ++ '\n' :: r from by
    conv_lhs => rw [hle]
    simp]
  rw [splitKeepNl_line l.dropLast r hln []]
  rw [List.reverse_nil, List.nil_append, ← hle]

theorem rstrip_tail_step (x elb : PyStr) (hne : elb ≠ []) (hr : pyRstrip elb = elb)
    (y : PyStr) (hy : y = elb ++ ['\n']) :
    pyRstrip (x ++ y) = x ++ elb := by
  subst hy
  rw [show x ++ (elb ++ ['\n']) = (x ++ elb) ++ ['\n'] from by simp,
    pyRstrip_append_newline, pyRstrip_append_of_self x elb hne hr]

/-- C8: with sane explicit markers present (a well-formed line file whose
last begin marker precedes its last end marker, marker-free stale region
and tail, a tail whose last line has content before its newline, and a
rendered block containing no marker line), merging the same rendered
block into the merger's own previous output is a fixed point: the second
run reproduces the first run's bytes exactly, so duplicate import lines
never accumulate between the markers. -/
theorem merge_idempotent (A B C : List PyStr) (bl el : PyStr) (initstrArg : PyStr)
    (hA : ∀ l ∈ A, wfLineB l = true)
    (hbl : wfLineB bl = true) (hblB : isBegin bl = true)
    (hB : ∀ l ∈ B, isBegin l = false ∧ isEnd l = false)
    (hel : wfLineB el = true) (helE : isEnd el = true)
    (helW : endsNonWsB el.dropLast = true)
    (hC : ∀ l ∈ C, wfLineB l = true ∧ isBegin l = false ∧ isEnd l = false)
    (hClast : lastBodyOkB C = true)
    (hMid : ∀ l ∈ splitKeepNl (midBlock initstrArg (takeUntilHash bl)),
      isBegin l = false ∧ isEnd l = false) :
    ∃ t, mergePure (A ++ [bl] ++ B ++ [el] ++ C) initstrArg = some t ∧
      mergePure (splitKeepNl t) initstrArg = some t := by
  have hrun1 := mergePure_marked A B C bl el initstrArg hblB helE hB
    fun l hl => ⟨(hC l hl).2.1, (hC l hl).2.2⟩
  obtain ⟨hele, heln⟩ := wfLineB_eq el hel
  obtain ⟨helbne, helbr⟩ := endsNonWsB_spec el.dropLast helW
  have hEndElb : isEnd el.dropLast = true := by
    rw [(mark_eq_dropLast el hel).2]
    exact helE
  rcases hgl : C.getLast? with _ | lc
  · -- the end marker is the last line of the file
    have hCnil : C = [] := List.getLast?_eq_none_iff.mp hgl
    subst hCnil
    refine ⟨(A.flatten ++ (bl ++ midBlock initstrArg (takeUntilHash bl))) ++ el.dropLast,
      ?_, ?_⟩
    · rw [hrun1]
      congr 1
      rw [show A.flatten ++ (bl ++ (midBlock initstrArg (takeUntilHash bl) ++
          (el ++ List.flatten ([] : List PyStr)))) =
        (A.flatten ++ (bl ++ midBlock initstrArg (takeUntilHash bl))) ++ el from by simp]
      exact rstrip_tail_step _ el.dropLast helbne helbr el hele
    · have hsplit : splitKeepNl
          ((A.flatten ++ (bl ++ midBlock initstrArg (takeUntilHash bl))) ++ el.dropLast) =
          A ++ [bl] ++ splitKeepNl (midBlock initstrArg (takeUntilHash bl)) ++
            [el.dropLast] ++ [] := by
        rw [show (A.flatten ++ (bl ++ midBlock initstrArg (takeUntilHash bl))) ++ el.dropLast =
          A.flatten ++ (bl ++ (midBlock initstrArg (takeUntilHash bl) ++ el.dropLast))
          from by simp]
        rw [splitKeepNl, splitKeepNl_merged A bl _ hA hbl, splitKeepNl_midstep,
          splitKeepNl_final el.dropLast heln [] (by simpa using helbne)]
        simp
      rw [hsplit]
      rw [mergePure_marked A (splitKeepNl (midBlock initstrArg (takeUntilHash bl))) []
        bl el.dropLast initstrArg hblB hEndElb hMid (by simp)]
      congr 1
      rw [show A.flatten ++ (bl ++ (midBlock initstrArg (takeUntilHash bl) ++
          (el.dropLast ++ List.flatten ([] : List PyStr)))) =
        (A.flatten ++ (bl ++ midBlock initstrArg (takeUntilHash bl))) ++ el.dropLast
        from by simp]
      exact pyRstrip_append_of_self _ _ helbne helbr
  · -- there is preserved content after the end marker
    have hlcmem : lc ∈ C := by
      obtain ⟨hne2, heq2⟩ := List.mem_getLast?_eq_getLast (l := C) (x := lc) hgl
      rw [heq2]
      exact List.getLast_mem hne2
    obtain ⟨hlcw, hlcb, hlce⟩ := hC lc hlcmem
    obtain ⟨hlce2, hlcn⟩ := wfLineB_eq lc hlcw
    have hlast : endsNonWsB lc.dropLast = true := by
      rw [lastBodyOkB, hgl] at hClast
      exact hClast
    obtain ⟨hlcbne, hlcbr⟩ := endsNonWsB_spec lc.dropLast hlast
    have hCfl : C.flatten = C.dropLast.flatten ++ lc := by
      conv_lhs => rw [← List.dropLast_append_getLast? lc hgl]
      rw [List.flatten_append, List.flatten_cons, List.flatten_nil, List.append_nil]
    have hCdw : ∀ l ∈ C.dropLast, wfLineB l = true :=
      fun l hl => (hC l (List.dropLast_subset C hl)).1
    have hCdm : ∀ l ∈ C.dropLast ++ [lc.dropLast], isBegin l = false ∧ isEnd l = false := by
      intro l hl
      rcases List.mem_append.mp hl with hl | hl
      · have := hC l (List.dropLast_subset C hl)
        exact ⟨this.2.1, this.2.2⟩
      · rw [List.mem_singleton] at hl
        subst hl
        exact ⟨by rw [(mark_eq_dropLast lc hlcw).1]; exact hlcb,
               by rw [(mark_eq_dropLast lc hlcw).2]; exact hlce⟩
    refine ⟨(A.flatten ++ (bl ++ (midBlock initstrArg (takeUntilHash bl) ++
      (el ++ C.dropLast.flatten)))) ++ lc.dropLast, ?_, ?_⟩
    · rw [hrun1]
      congr 1
      rw [hCfl]
      rw [show A.flatten ++ (bl ++ (midBlock initstrArg (takeUntilHash bl) ++
          (el ++ (C.dropLast.flatten ++ lc)))) =
        (A.flatten ++ (bl ++ (midBlock initstrArg (takeUntilHash bl) ++
          (el ++ C.dropLast.flatten)))) ++ lc from by simp]
      exact rstrip_tail_step _ lc.dropLast hlcbne hlcbr lc hlce2
    · have hsplit : splitKeepNl ((A.flatten ++ (bl ++ (midBlock initstrArg (takeUntilHash bl) ++
          (el ++ C.dropLast.flatten)))) ++ lc.dropLast) =
          A ++ [bl] ++ splitKeepNl (midBlock initstrArg (takeUntilHash bl)) ++
            [el] ++ (C.dropLast ++ [lc.dropLast]) := by
        rw [show (A.flatten ++ (bl ++ (midBlock initstrArg (takeUntilHash bl) ++
            (el ++ C.dropLast.flatten)))) ++ lc.dropLast =
          A.flatten ++ (bl ++ (midBlock initstrArg (takeUntilHash bl) ++
            (el ++ (C.dropLast.flatten ++ lc.dropLast)))) from by simp]
        rw [splitKeepNl, splitKeepNl_merged A bl _ hA hbl, splitKeepNl_midstep,
          splitKeepNl_line_wf el hel, splitKeepNl_flatten_wf C.dropLast _ hCdw,
          splitKeepNl_final lc.dropLast hlcn [] (by simpa using hlcbne)]
        simp
      rw [hsplit]
      rw [mergePure_marked A (splitKeepNl (midBlock initstrArg (takeUntilHash bl)))
        (C.dropLast ++ [lc.dropLast]) bl el initstrArg hblB helE hMid hCdm]
      congr 1
      rw [show A.flatten ++ (bl ++ (midBlock initstrArg (takeUntilHash bl) ++
          (el ++ (C.dropLast ++ [lc.dropLast]).flatten))) =
        (A.flatten ++ (bl ++ (midBlock initstrArg (takeUntilHash bl) ++
          (el ++ C.dropLast.flatten)))) ++ lc.dropLast from by simp]
      exact pyRstrip_append_of_self _ _ hlcbne hlcbr

/-- C8, witness: idempotence at a concrete marked file with stale
content between the markers, a tail line after the end marker, and a
two-line rendered block. -/
theorem merge_idempotent_inst :
    ∃ t, mergePure [S "x\n", S "# <AUTOGEN_INIT>\n", S "old\n", S "# </AUTOGEN_INIT>\n",
        S "tail\n"]
      (S "from pkg import a\nfrom pkg.a import (foo,)") = some t ∧
      mergePure (splitKeepNl t) (S "from pkg import a\nfrom pkg.a import (foo,)") = some t := by
  have h := merge_idempotent [S "x\n"] [S "old\n"] [S "tail\n"]
    (S "# <AUTOGEN_INIT>\n") (S "# </AUTOGEN_INIT>\n")
    (S "from pkg import a\nfrom pkg.a import (foo,)")
    (by decide) (by decide) (by decide) (by decide) (by decide) (by decide) (by decide)
    (by decide) (by decide) (by decide)
  simpa using h

end StaticAutogen
